import Mathlib

/-!
# A verification development for the `GuiCalculter.py` calculator engine

This file gives a shallow embedding, in Lean 4, of the calculator engine of
`src/GuiCalculter.py` (a Tkinter four-function calculator), together with
theorems settling the specification claims about it.

Modelling conventions:

* Python `decimal.Decimal` values are modelled by the type `Dec` below, an
  unreduced scaled integer `num / den`.  This mirrors `Decimal`'s own
  coefficient/exponent representation: parsing the entry string `"12.34"`
  yields coefficient `1234` with two fractional digits, i.e. `⟨1234, 100⟩`.
  Arithmetic is modelled exactly; the `getcontext().prec = 40` rounding that
  Python applies beyond 40 significant digits is not modelled (the
  specification itself treats arithmetic as exact decimal arithmetic, with
  precision loss "not reachable in normal calculator usage").  No claim in
  scope depends on that rounding.
* Python strings are Lean `String`s; the helper functions work on the
  underlying `List Char`.
* The Tk widgets are out of scope.  The display label (`self.display_var`)
  is kept as a `display` field of the state; the clear-button label and the
  operator highlight are pure functions of the state (the code recomputes
  them from the state after every event).
-/

/-- Exact value `num / den`, an unreduced scaled integer.  Models a
`decimal.Decimal`: every `Decimal` is a sign, a coefficient and an exponent,
i.e. an integer numerator over a power-of-ten denominator.  `den` is kept
positive by every constructor in this development. -/
structure Dec where
  num : Int
  den : Nat
deriving DecidableEq

/-- Addition of `Decimal` values (`Decimal.__add__`), exact. -/
def Dec.add (a b : Dec) : Dec :=
  ⟨a.num * (b.den : Int) + b.num * (a.den : Int), a.den * b.den⟩

/-- Subtraction of `Decimal` values (`Decimal.__sub__`), exact. -/
def Dec.sub (a b : Dec) : Dec :=
  ⟨a.num * (b.den : Int) - b.num * (a.den : Int), a.den * b.den⟩

/-- Multiplication of `Decimal` values (`Decimal.__mul__`), exact. -/
def Dec.mul (a b : Dec) : Dec :=
  ⟨a.num * b.num, a.den * b.den⟩

/-- Division of `Decimal` values (`Decimal.__truediv__`), as exact rational
division (the engine only
divides by a nonzero right operand; division by zero is intercepted before
this function is reached). -/
def Dec.div (a b : Dec) : Dec :=
  ⟨if b.num < 0 then -(a.num * (b.den : Int)) else a.num * (b.den : Int),
   a.den * b.num.natAbs⟩

/-- The comparison `value == 0` on a `Decimal` (value equality: a fraction
with positive denominator is zero exactly when its numerator is). -/
def Dec.isZero (a : Dec) : Bool :=
  a.num == 0

/-- The comparison `value < 0` on a `Decimal` (with positive denominator,
the sign is the sign of the numerator). -/
def Dec.isNeg (a : Dec) : Bool :=
  a.num < 0

/-- The rational value of a `Dec`. -/
def Dec.toRat (a : Dec) : ℚ :=
  (a.num : ℚ) / (a.den : ℚ)

/-- The digit character for `d` (`0 ↦ '0'`, …, `9 ↦ '9'`). -/
def digitChar (d : Nat) : Char :=
  Char.ofNat (48 + d)

/-- The numeric value of a digit character (`'0' ↦ 0`, …, `'9' ↦ 9`). -/
def digitVal (c : Char) : Nat :=
  c.toNat - 48

/-- Is `c` one of `'0'`–`'9'`? -/
def isDigitC (c : Char) : Bool :=
  decide (48 ≤ c.toNat ∧ c.toNat ≤ 57)

/-- Read a digit string as a natural number, most significant digit first
(the value `int(...)` gives to a digit string). -/
def readNat (cs : List Char) : Nat :=
  cs.foldl (fun a c => 10 * a + digitVal c) 0

/-- Fuelled base-10 rendering of a natural number, most significant digit
first; `fuel > n` suffices. -/
def natCharsAux : Nat → Nat → List Char
  | 0, _ => []
  | fuel + 1, n =>
    if n < 10 then [digitChar n]
    else natCharsAux fuel (n / 10) ++ [digitChar (n % 10)]

/-- Base-10 rendering of a natural number, most significant digit first
(`str(n)` for a nonnegative integer; `natChars 0 = ['0']`). -/
def natChars (n : Nat) : List Char :=
  natCharsAux (n + 1) n

/-- Left-pad a digit string with `'0'`s to length `e`. -/
def padZeros (e : Nat) (cs : List Char) : List Char :=
  List.replicate (e - cs.length) '0' ++ cs

/-- Python's `text.rstrip(c)` for a single character: remove every trailing
occurrence of `c`. -/
def rstripChar (c : Char) (cs : List Char) : List Char :=
  (cs.reverse.dropWhile (fun a => a == c)).reverse

/-- Split a character list at the first `'.'`: the part before it, and
(if a `'.'` occurs) the whole remainder after it. -/
def splitDot : List Char → List Char × Option (List Char)
  | [] => ([], none)
  | c :: cs =>
    if c = '.' then ([], some cs)
    else
      let p := splitDot cs
      (c :: p.1, p.2)

/-- Rendering `format(value, "f")` for the magnitude `m / 10 ^ e`: plain fixed-point
notation, with exactly `e` fractional digits when `e > 0`. -/
def fixedPointChars (m e : Nat) : List Char :=
  if e = 0 then natChars m
  else natChars (m / 10 ^ e) ++ '.' :: padZeros e (natChars (m % 10 ^ e))

/-- The trailing-zero cleanup of `_format_decimal`:
`if "." in text: text = text.rstrip("0").rstrip(".")`. -/
def stripText (cs : List Char) : List Char :=
  if '.' ∈ cs then rstripChar '.' (rstripChar '0' cs) else cs

/-- Fuelled computation of the number of fractional digits needed to write
`m / n` in fixed point: the larger of the multiplicities of `2` and `5` in
`n` (for `n` a divisor of a power of ten this is the least `e` with
`n ∣ 10 ^ e`).  `fuel ≥ n` suffices. -/
def decExpAux : Nat → Nat → Nat
  | 0, _ => 0
  | fuel + 1, n =>
    if 2 ≤ n then
      if n % 10 = 0 then decExpAux fuel (n / 10) + 1
      else if n % 2 = 0 then decExpAux fuel (n / 2) + 1
      else if n % 5 = 0 then decExpAux fuel (n / 5) + 1
      else 0
    else 0

/-- Number of fractional digits used to render a value with denominator
`n`; for `n = 10 ^ k` (the denominators the engine produces) this is `k`,
matching the exponent a `Decimal` carries. -/
def decExp (n : Nat) : Nat :=
  decExpAux n n

/-- The character list produced by `_format_decimal`.  The Python function
renders the `Decimal`'s own exponent and then strips trailing fractional
zeros; since the stripping makes the pre-strip exponent irrelevant, the
rendered result depends only on the value, which is what is computed here.
The `is_nan` branch of the source is unreachable (no engine operation
produces a NaN) and has no counterpart in `Dec`. -/
def fmtChars (value : Dec) : List Char :=
  if value.num = 0 then ['0']
  else
    let sign : List Char := if value.num < 0 then ['-'] else []
    let e := decExp value.den
    let m := value.num.natAbs * 10 ^ e / value.den
    let text := stripText (fixedPointChars m e)
    sign ++ (if text = [] then ['0'] else text)

/-- The function `_format_decimal(value)` from the source. -/
def format_decimal (value : Dec) : String :=
  String.mk (fmtChars value)

/-- Strip one leading `'-'` sign, reporting whether one was present. -/
def stripSignChars : List Char → Bool × List Char
  | c :: cs => if c = '-' then (true, cs) else (false, c :: cs)
  | [] => (false, [])

/-- The function `_decimal_from_text(text)` on the underlying character list.  The
special incomplete forms are sent to `0` exactly as in the source; any
other text is parsed by the plain-decimal-literal rules of
`Decimal(text)` — an optional sign, integer digits, an optional point and
fraction digits — and a text that fails to parse yields `0`, modelling the
`except InvalidOperation` fallback.  (`Decimal` also accepts exponent and
special-value spellings; those can never occur as an entry text and are
absorbed by the same `0` fallback here.) -/
def decFromChars (cs : List Char) : Dec :=
  if cs = [] ∨ cs = ['-'] ∨ cs = ['.'] ∨ cs = ['-', '.'] ∨
      cs = ['0', '.'] ∨ cs = ['-', '0', '.'] then ⟨0, 1⟩
  else
    let p := stripSignChars cs
    match splitDot p.2 with
    | (ip, none) =>
      if ip ≠ [] ∧ ip.all isDigitC = true then
        ⟨(if p.1 then -1 else 1) * (readNat ip : Int), 1⟩
      else ⟨0, 1⟩
    | (ip, some fp) =>
      if (ip ≠ [] ∨ fp ≠ []) ∧ ip.all isDigitC = true ∧ fp.all isDigitC = true then
        ⟨(if p.1 then -1 else 1) * ((readNat ip * 10 ^ fp.length + readNat fp : Nat) : Int),
         10 ^ fp.length⟩
      else ⟨0, 1⟩

/-- The function `_decimal_from_text(text)` from the source. -/
def decimal_from_text (text : String) : Dec :=
  decFromChars text.data

/-- A syntactically valid (partial or complete) entry text: an optional
leading `'-'`, then digits, then optionally a `'.'` and further digits,
every digit group possibly empty.  This is the invariant the specification
states for `entry_text`, and covers `""`, `"-"`, `"."`, `"-."`, `"0."`,
`"-0."`. -/
def ValidEntry (s : String) : Bool :=
  let p := stripSignChars s.data
  match splitDot p.2 with
  | (ip, none) => ip.all isDigitC
  | (ip, some fp) => ip.all isDigitC && fp.all isDigitC

/-- The four operator tags `"+"`, `"-"`, `"*"`, `"/"` of the source. -/
inductive Op
  | add
  | sub
  | mul
  | div
deriving DecidableEq

/-- The engine's input events (spec §6): the code paths of the
`CalculatorApp.on_*` handlers. -/
inductive Event
  | digit (d : Char)
  | decimalPoint
  | operator (op : Op)
  | equals
  | percent
  | signToggle
  | backspace
  | clear
  | allClear
deriving DecidableEq

/-- The engine state: the fields set up in `CalculatorApp.__init__`,
plus the displayed text (`self.display_var`). -/
structure CalcState where
  accumulator : Dec
  current_text : String
  pending_op : Option Op
  last_op : Option Op
  last_operand : Dec
  reset_next_entry : Bool
  error_state : Bool
  display : String
deriving DecidableEq

/-- The state after `__init__` (equally: after `on_all_clear`). -/
def initState : CalcState :=
  { accumulator := ⟨0, 1⟩
    current_text := "0"
    pending_op := none
    last_op := none
    last_operand := ⟨0, 1⟩
    reset_next_entry := false
    error_state := false
    display := "0" }

/-- Handler `CalculatorApp.on_all_clear`: unconditionally reset every field (the
source also sets the display back to the fresh `current_text`). -/
def on_all_clear (_ : CalcState) : CalcState :=
  initState

/-- Helper `CalculatorApp._set_error`. -/
def set_error (s : CalcState) : CalcState :=
  { s with
    error_state := true
    pending_op := none
    last_op := none
    last_operand := ⟨0, 1⟩
    reset_next_entry := true
    display := "Error" }

/-- Helper `CalculatorApp._refresh_clear_label`: the text put on the clear
button. -/
def clearLabel (s : CalcState) : String :=
  if s.error_state = true then "AC"
  else
    if s.current_text = "0" ∧ s.accumulator.isZero = true ∧
        s.pending_op = none ∧ s.reset_next_entry = false then "AC"
    else "C"

/-- Helper `CalculatorApp._update_op_highlight` receives, on each call site, the
pending operator; the highlighted operator is therefore this function of
the state («the "=" control is never highlighted»). -/
def highlightedOp (s : CalcState) : Option Op :=
  s.pending_op

/-- Helper `CalculatorApp._commit_pending(rhs)`.  The `ZeroDivisionError` raised
on a zero right operand of `"/"` is caught immediately and turned into
`_set_error()`; it is modelled as the direct transition. -/
def commit_pending (s : CalcState) (rhs : Dec) : CalcState :=
  match s.pending_op with
  | none => { s with accumulator := rhs }
  | some Op.add => { s with accumulator := s.accumulator.add rhs }
  | some Op.sub => { s with accumulator := s.accumulator.sub rhs }
  | some Op.mul => { s with accumulator := s.accumulator.mul rhs }
  | some Op.div =>
    if rhs.isZero = true then set_error s
    else { s with accumulator := s.accumulator.div rhs }

/-- Handler `CalculatorApp.on_digit(digit)`. -/
def on_digit (s : CalcState) (d : Char) : CalcState :=
  let s1 := if s.error_state = true then on_all_clear s else s
  let s2 :=
    if s1.reset_next_entry = true then
      { s1 with current_text := "0", reset_next_entry := false }
    else s1
  let s3 :=
    if s2.current_text = "0" then { s2 with current_text := String.singleton d }
    else if s2.current_text = "-0" then
      { s2 with current_text := "-" ++ String.singleton d }
    else { s2 with current_text := s2.current_text ++ String.singleton d }
  { s3 with display := s3.current_text }

/-- Handler `CalculatorApp.on_decimal`. -/
def on_decimal (s : CalcState) : CalcState :=
  let s1 := if s.error_state = true then on_all_clear s else s
  let s2 :=
    if s1.reset_next_entry = true then
      { s1 with current_text := "0", reset_next_entry := false }
    else s1
  let s3 :=
    if '.' ∈ s2.current_text.data then s2
    else { s2 with current_text := s2.current_text ++ "." }
  { s3 with display := s3.current_text }

/-- Handler `CalculatorApp.on_backspace`. -/
def on_backspace (s : CalcState) : CalcState :=
  if s.error_state = true then on_all_clear s
  else if s.reset_next_entry = true then s
  else
    let t :=
      if s.current_text.length ≤ 1 ∨
          (s.current_text.length = 2 ∧ s.current_text.data.head? = some '-') then
        ("0" : String)
      else String.mk s.current_text.data.dropLast
    { s with current_text := t, display := t }

/-- Handler `CalculatorApp.on_operator(op)`.  The guard `op not in ...` of the
source is vacuous here because `Op` is exactly that set. -/
def on_operator (s : CalcState) (op : Op) : CalcState :=
  if s.error_state = true then s
  else
    let rhs := decimal_from_text s.current_text
    if s.pending_op ≠ none ∧ s.reset_next_entry = true then
      { s with pending_op := some op }
    else
      let s1 :=
        if s.pending_op = none then { s with accumulator := rhs }
        else commit_pending s rhs
      if s1.error_state = true then s1
      else
        { s1 with
          pending_op := some op
          last_op := none
          display := format_decimal s1.accumulator
          current_text := format_decimal s1.accumulator
          reset_next_entry := true }

/-- The tail shared by every non-aborted path of `CalculatorApp.on_equals`:
`current_text = _format_decimal(accumulator)`, `_set_display(current_text)`,
`reset_next_entry = True`. -/
def equals_finish (s : CalcState) : CalcState :=
  { s with
    current_text := format_decimal s.accumulator
    display := format_decimal s.accumulator
    reset_next_entry := true }

/-- Handler `CalculatorApp.on_equals`.  The `return` on a failed commit is modelled
by yielding the error state directly; each successful branch runs the
shared tail `equals_finish`. -/
def on_equals (s : CalcState) : CalcState :=
  if s.error_state = true then s
  else
    match s.pending_op with
    | some op =>
      let rhs := decimal_from_text s.current_text
      let s1 := commit_pending s rhs
      if s1.error_state = true then s1
      else equals_finish { s1 with last_op := some op, last_operand := rhs, pending_op := none }
    | none =>
      match s.last_op with
      | some lop =>
        let s1 := { commit_pending { s with pending_op := some lop } s.last_operand with
                    pending_op := none }
        if s1.error_state = true then s1
        else equals_finish s1
      | none => equals_finish s

/-- Handler `CalculatorApp.on_percent`. -/
def on_percent (s : CalcState) : CalcState :=
  if s.error_state = true then s
  else
    let value := (decimal_from_text s.current_text).div ⟨100, 1⟩
    { s with
      current_text := format_decimal value
      display := format_decimal value }

/-- Handler `CalculatorApp.on_toggle_sign`. -/
def on_toggle_sign (s : CalcState) : CalcState :=
  if s.error_state = true then s
  else
    let t :=
      match s.current_text.data with
      | '-' :: rest => String.mk rest
      | _ =>
        if s.current_text ≠ "0" then "-" ++ s.current_text
        else "-0"
    { s with current_text := t, display := t }

/-- Handler `CalculatorApp.on_clear`. -/
def on_clear (s : CalcState) : CalcState :=
  if s.error_state = true then on_all_clear s
  else
    if s.current_text = "0" ∧ s.accumulator.isZero = true ∧
        s.pending_op = none ∧ s.reset_next_entry = false then
      on_all_clear s
    else
      { s with current_text := "0", display := "0", reset_next_entry := false }

/-- One engine step: dispatch an event to its handler. -/
def stepEvent (s : CalcState) : Event → CalcState
  | Event.digit d => on_digit s d
  | Event.decimalPoint => on_decimal s
  | Event.operator op => on_operator s op
  | Event.equals => on_equals s
  | Event.percent => on_percent s
  | Event.signToggle => on_toggle_sign s
  | Event.backspace => on_backspace s
  | Event.clear => on_clear s
  | Event.allClear => on_all_clear s

/-- Run a sequence of events from the initial state. -/
def runEvents (evs : List Event) : CalcState :=
  evs.foldl stepEvent initState

/-- A state the engine can actually be in: reachable from the initial
state by some event sequence. -/
def Reachable (s : CalcState) : Prop :=
  ∃ evs : List Event, runEvents evs = s

/-! ## Engine-level helper lemmas -/

/-- An error state, used as a concrete input below: the state reached by
`_set_error` from the initial state (e.g. right after `0 ÷ 0 =`... any
division by zero). -/
def errState : CalcState :=
  set_error initState

/-- The committed operation `accumulator := accumulator op rhs` of the
engine (the four assignment branches of `_commit_pending`). -/
def applyOp : Op → Dec → Dec → Dec
  | Op.add, a, b => a.add b
  | Op.sub, a, b => a.sub b
  | Op.mul, a, b => a.mul b
  | Op.div, a, b => a.div b

theorem commit_pending_error_iff (s : CalcState) (rhs : Dec)
    (h : s.error_state = false) :
    (commit_pending s rhs).error_state = true ↔
      (s.pending_op = some Op.div ∧ rhs.isZero = true) := by
  cases hp : s.pending_op with
  | none => simp [commit_pending, hp, h]
  | some op =>
    cases op with
    | div =>
      by_cases hz : rhs.isZero = true <;>
        simp [commit_pending, hp, hz, set_error, h]
    | add => simp [commit_pending, hp, h]
    | sub => simp [commit_pending, hp, h]
    | mul => simp [commit_pending, hp, h]

theorem commit_pending_success (s : CalcState) (rhs : Dec) (op : Op)
    (hp : s.pending_op = some op)
    (hs : ¬(op = Op.div ∧ rhs.isZero = true)) :
    commit_pending s rhs = { s with accumulator := applyOp op s.accumulator rhs } := by
  cases op with
  | div =>
    have hz : rhs.isZero = false := by
      cases h : rhs.isZero with
      | false => rfl
      | true => exact absurd ⟨rfl, h⟩ hs
    simp [commit_pending, hp, hz, applyOp]
  | add => simp [commit_pending, hp, applyOp]
  | sub => simp [commit_pending, hp, applyOp]
  | mul => simp [commit_pending, hp, applyOp]

/-- The repeat memory is never a division by zero: whenever `last_op` is
the divide operator, the remembered operand is nonzero.  (`on_equals` only
stores `last_operand := rhs` after a successful commit, and a successful
divide commit requires `rhs ≠ 0`; every other write clears the memory.) -/
def LastOpInv (s : CalcState) : Prop :=
  s.last_op = some Op.div → s.last_operand.isZero = false

/-- The display tracks the state: outside the error state it shows the
entry text, in the error state it shows `"Error"`. -/
def DisplayInv (s : CalcState) : Prop :=
  (s.error_state = false → s.display = s.current_text) ∧
  (s.error_state = true → s.display = "Error")


theorem on_digit_of_error (s : CalcState) (d : Char) (h : s.error_state = true) :
    on_digit s d = { initState with
      current_text := String.singleton d, display := String.singleton d } := by
  simp [on_digit, h, on_all_clear, initState]

theorem on_digit_frame (s : CalcState) (d : Char) (h : s.error_state = false) :
    (on_digit s d).accumulator = s.accumulator ∧
    (on_digit s d).pending_op = s.pending_op ∧
    (on_digit s d).last_op = s.last_op ∧
    (on_digit s d).last_operand = s.last_operand ∧
    (on_digit s d).error_state = false ∧
    (on_digit s d).display = (on_digit s d).current_text := by
  simp only [on_digit, h, Bool.false_eq_true, if_false]
  split_ifs <;> simp [h]

theorem on_decimal_of_error (s : CalcState) (h : s.error_state = true) :
    on_decimal s = { initState with current_text := "0.", display := "0." } := by
  simp [on_decimal, h, on_all_clear, initState]

theorem on_decimal_frame (s : CalcState) (h : s.error_state = false) :
    (on_decimal s).accumulator = s.accumulator ∧
    (on_decimal s).pending_op = s.pending_op ∧
    (on_decimal s).last_op = s.last_op ∧
    (on_decimal s).last_operand = s.last_operand ∧
    (on_decimal s).error_state = false ∧
    (on_decimal s).display = (on_decimal s).current_text := by
  simp only [on_decimal, h, Bool.false_eq_true, if_false]
  split_ifs <;> simp [h]

theorem on_backspace_of_error (s : CalcState) (h : s.error_state = true) :
    on_backspace s = initState := by
  simp [on_backspace, h, on_all_clear]

theorem on_backspace_frame (s : CalcState) (h : s.error_state = false) :
    (on_backspace s).accumulator = s.accumulator ∧
    (on_backspace s).pending_op = s.pending_op ∧
    (on_backspace s).last_op = s.last_op ∧
    (on_backspace s).last_operand = s.last_operand ∧
    (on_backspace s).error_state = false := by
  simp only [on_backspace, h, Bool.false_eq_true, if_false]
  split_ifs <;> simp [h]

theorem on_percent_of_error (s : CalcState) (h : s.error_state = true) :
    on_percent s = s := by
  simp [on_percent, h]

theorem on_percent_eq (s : CalcState) (h : s.error_state = false) :
    on_percent s = { s with
      current_text := format_decimal ((decimal_from_text s.current_text).div ⟨100, 1⟩)
      display := format_decimal ((decimal_from_text s.current_text).div ⟨100, 1⟩) } := by
  simp [on_percent, h]

theorem on_toggle_sign_of_error (s : CalcState) (h : s.error_state = true) :
    on_toggle_sign s = s := by
  simp [on_toggle_sign, h]

theorem on_toggle_sign_eq (s : CalcState) (h : s.error_state = false) :
    on_toggle_sign s = { s with
      current_text := (on_toggle_sign s).current_text
      display := (on_toggle_sign s).current_text } := by
  simp only [on_toggle_sign, h, Bool.false_eq_true, if_false]

theorem on_clear_cases (s : CalcState) :
    on_clear s = initState ∨
    (s.error_state = false ∧
      on_clear s = { s with current_text := "0", display := "0", reset_next_entry := false }) := by
  unfold on_clear on_all_clear
  split_ifs with h1 h2
  · left; rfl
  · left; rfl
  · right
    exact ⟨by simpa using h1, rfl⟩

theorem on_operator_of_error (s : CalcState) (op : Op) (h : s.error_state = true) :
    on_operator s op = s := by
  simp [on_operator, h]

theorem on_equals_of_error (s : CalcState) (h : s.error_state = true) :
    on_equals s = s := by
  simp [on_equals, h]


theorem on_operator_shapes (s : CalcState) (op : Op) (h1 : s.error_state = false) :
    on_operator s op = { s with pending_op := some op } ∨
    (∃ acc1 : Dec, on_operator s op = { s with
        accumulator := acc1
        pending_op := some op
        last_op := none
        display := format_decimal acc1
        current_text := format_decimal acc1
        reset_next_entry := true }) ∨
    on_operator s op = set_error s := by
  obtain ⟨acc, text, pending, lastop, lastoperand, reset, err, disp⟩ := s
  simp only at h1
  subst h1
  simp only [on_operator, Bool.false_eq_true, if_false]
  by_cases h2 : (pending ≠ none ∧ reset = true)
  · left
    rw [if_pos (by simpa using h2)]
  · rw [if_neg (by simpa using h2)]
    right
    cases pending with
    | none =>
      left
      exact ⟨decimal_from_text text, by simp⟩
    | some op0 =>
      by_cases hz : op0 = Op.div ∧ (decimal_from_text text).isZero = true
      · right
        rcases hz with ⟨rfl, hz⟩
        simp [commit_pending, hz, set_error]
      · left
        refine ⟨applyOp op0 acc (decimal_from_text text), ?_⟩
        have he := commit_pending_success
          ⟨acc, text, some op0, lastop, lastoperand, reset, false, disp⟩
          (decimal_from_text text) op0 rfl hz
        simp only [CalcState.accumulator, CalcState.current_text, CalcState.pending_op,
          CalcState.last_op, CalcState.last_operand, CalcState.reset_next_entry,
          CalcState.error_state, CalcState.display] at he
        simp [he]

theorem on_equals_shapes (s : CalcState) (h1 : s.error_state = false) :
    on_equals s = set_error s ∨
    (∃ op rhs, s.pending_op = some op ∧ rhs = decimal_from_text s.current_text ∧
      ¬(op = Op.div ∧ rhs.isZero = true) ∧
      on_equals s = equals_finish { s with
        accumulator := applyOp op s.accumulator rhs
        last_op := some op
        last_operand := rhs
        pending_op := none }) ∨
    (∃ lop, s.pending_op = none ∧ s.last_op = some lop ∧
      ¬(lop = Op.div ∧ s.last_operand.isZero = true) ∧
      on_equals s = equals_finish { s with
        accumulator := applyOp lop s.accumulator s.last_operand
        pending_op := none }) ∨
    (s.pending_op = none ∧ s.last_op = none ∧ on_equals s = equals_finish s) := by
  obtain ⟨acc, text, pending, lastop, lastoperand, reset, err, disp⟩ := s
  simp only at h1
  subst h1
  simp only [on_equals, Bool.false_eq_true, if_false]
  cases pending with
  | some op0 =>
    by_cases hz : op0 = Op.div ∧ (decimal_from_text text).isZero = true
    · left
      rcases hz with ⟨rfl, hz⟩
      simp [commit_pending, hz, set_error]
    · right; left
      refine ⟨op0, decimal_from_text text, rfl, rfl, hz, ?_⟩
      have he := commit_pending_success
        ⟨acc, text, some op0, lastop, lastoperand, reset, false, disp⟩
        (decimal_from_text text) op0 rfl hz
      rw [he]
      simp
  | none =>
    cases lastop with
    | none =>
      right; right; right
      exact ⟨rfl, rfl, rfl⟩
    | some lop =>
      by_cases hz : lop = Op.div ∧ lastoperand.isZero = true
      · left
        rcases hz with ⟨rfl, hz⟩
        simp [commit_pending, hz, set_error]
      · right; right; left
        refine ⟨lop, rfl, rfl, hz, ?_⟩
        have he := commit_pending_success
          ⟨acc, text, some lop, some lop, lastoperand, reset, false, disp⟩
          lastoperand lop rfl hz
        simp only [CalcState.accumulator, CalcState.current_text, CalcState.pending_op,
          CalcState.last_op, CalcState.last_operand, CalcState.reset_next_entry,
          CalcState.error_state, CalcState.display] at he
        simp [he]

theorem lastOpInv_initState : LastOpInv initState := by
  intro h
  simp [initState] at h

theorem lastOpInv_step (s : CalcState) (e : Event) (h : LastOpInv s) :
    LastOpInv (stepEvent s e) := by
  cases e with
  | digit d =>
    cases herr : s.error_state with
    | true => simp [stepEvent, on_digit_of_error s d herr, LastOpInv, initState]
    | false =>
      obtain ⟨-, -, hlo, hlod, -, -⟩ := on_digit_frame s d herr
      simp only [stepEvent]
      intro hd
      rw [hlod]
      exact h (hlo ▸ hd)
  | decimalPoint =>
    cases herr : s.error_state with
    | true => simp [stepEvent, on_decimal_of_error s herr, LastOpInv, initState]
    | false =>
      obtain ⟨-, -, hlo, hlod, -, -⟩ := on_decimal_frame s herr
      simp only [stepEvent]
      intro hd
      rw [hlod]
      exact h (hlo ▸ hd)
  | backspace =>
    cases herr : s.error_state with
    | true => simp [stepEvent, on_backspace_of_error s herr, LastOpInv, initState]
    | false =>
      obtain ⟨-, -, hlo, hlod, -⟩ := on_backspace_frame s herr
      simp only [stepEvent]
      intro hd
      rw [hlod]
      exact h (hlo ▸ hd)
  | percent =>
    cases herr : s.error_state with
    | true => simp [stepEvent, on_percent_of_error s herr, h]
    | false =>
      rw [stepEvent, on_percent_eq s herr]
      intro hd
      exact h hd
  | signToggle =>
    cases herr : s.error_state with
    | true => simp [stepEvent, on_toggle_sign_of_error s herr, h]
    | false =>
      rw [stepEvent, on_toggle_sign_eq s herr]
      intro hd
      exact h hd
  | clear =>
    rcases on_clear_cases s with hc | ⟨he, hc⟩ <;> rw [stepEvent, hc]
    · exact lastOpInv_initState
    · intro hd
      exact h hd
  | allClear =>
    exact lastOpInv_initState
  | operator op =>
    cases herr : s.error_state with
    | true => simp [stepEvent, on_operator_of_error s op herr, h]
    | false =>
      rcases on_operator_shapes s op herr with ho | ⟨acc1, ho⟩ | ho <;>
        rw [stepEvent, ho] <;> intro hd
      · exact h hd
      · simp at hd
      · simp [set_error] at hd
  | equals =>
    cases herr : s.error_state with
    | true => simp [stepEvent, on_equals_of_error s herr, h]
    | false =>
      rcases on_equals_shapes s herr with ho | ⟨op, rhs, hp, hrhs, hz, ho⟩ |
          ⟨lop, hp, hl, hz, ho⟩ | ⟨hp, hl, ho⟩ <;> rw [stepEvent, ho] <;> intro hd
      · simp [set_error] at hd
      · simp [equals_finish] at hd ⊢
        subst hd
        cases hzz : rhs.isZero with
        | false => rfl
        | true => exact absurd ⟨rfl, hzz⟩ hz
      · simp [equals_finish] at hd ⊢
        exact h hd
      · simp [equals_finish] at hd ⊢
        exact h hd

theorem lastOpInv_runEvents (evs : List Event) : LastOpInv (runEvents evs) := by
  rw [runEvents]
  induction evs using List.reverseRecOn with
  | nil => exact lastOpInv_initState
  | append_singleton evs e ih =>
    rw [List.foldl_append]
    exact lastOpInv_step _ e ih

theorem displayInv_initState : DisplayInv initState := by
  constructor <;> intro h <;> simp [initState] at h ⊢

theorem displayInv_step (s : CalcState) (e : Event) (h : DisplayInv s) :
    DisplayInv (stepEvent s e) := by
  cases e with
  | digit d =>
    cases herr : s.error_state with
    | true =>
      rw [stepEvent, on_digit_of_error s d herr]
      constructor <;> intro hx <;> simp_all [initState]
    | false =>
      obtain ⟨-, -, -, -, he, hd⟩ := on_digit_frame s d herr
      simp only [stepEvent]
      exact ⟨fun _ => hd, fun hx => by rw [he] at hx; cases hx⟩
  | decimalPoint =>
    cases herr : s.error_state with
    | true =>
      rw [stepEvent, on_decimal_of_error s herr]
      constructor <;> intro hx <;> simp_all [initState]
    | false =>
      obtain ⟨-, -, -, -, he, hd⟩ := on_decimal_frame s herr
      simp only [stepEvent]
      exact ⟨fun _ => hd, fun hx => by rw [he] at hx; cases hx⟩
  | backspace =>
    cases herr : s.error_state with
    | true =>
      rw [stepEvent, on_backspace_of_error s herr]
      exact displayInv_initState
    | false =>
      rw [stepEvent, on_backspace]
      rw [herr]
      simp only [Bool.false_eq_true, if_false]
      split_ifs with hr hlen
      · exact h
      · exact ⟨fun _ => rfl, fun hx => Bool.noConfusion hx⟩
      · exact ⟨fun _ => rfl, fun hx => Bool.noConfusion hx⟩
  | percent =>
    cases herr : s.error_state with
    | true => rw [stepEvent, on_percent_of_error s herr]; exact h
    | false =>
      rw [stepEvent, on_percent_eq s herr]
      constructor <;> intro hx <;> simp_all
  | signToggle =>
    cases herr : s.error_state with
    | true => rw [stepEvent, on_toggle_sign_of_error s herr]; exact h
    | false =>
      rw [stepEvent, on_toggle_sign_eq s herr]
      constructor <;> intro hx <;> simp_all
  | clear =>
    rcases on_clear_cases s with hc | ⟨he, hc⟩ <;> rw [stepEvent, hc]
    · exact displayInv_initState
    · exact ⟨fun _ => rfl, fun hx => by simp [he] at hx⟩
  | allClear =>
    exact displayInv_initState
  | operator op =>
    cases herr : s.error_state with
    | true => rw [stepEvent, on_operator_of_error s op herr]; exact h
    | false =>
      rcases on_operator_shapes s op herr with ho | ⟨acc1, ho⟩ | ho <;>
        rw [stepEvent, ho]
      · exact ⟨fun _ => h.1 herr, fun hx => by simp at hx; rw [hx] at herr; cases herr⟩
      · constructor <;> intro hx <;> simp_all
      · constructor <;> intro hx <;> simp_all [set_error]
  | equals =>
    cases herr : s.error_state with
    | true => rw [stepEvent, on_equals_of_error s herr]; exact h
    | false =>
      rcases on_equals_shapes s herr with ho | ⟨op, rhs, hp, hrhs, hz, ho⟩ |
          ⟨lop, hp, hl, hz, ho⟩ | ⟨hp, hl, ho⟩ <;> rw [stepEvent, ho]
      · constructor <;> intro hx <;> simp_all [set_error]
      · constructor <;> intro hx <;> simp_all [equals_finish]
      · constructor <;> intro hx <;> simp_all [equals_finish]
      · constructor <;> intro hx <;> simp_all [equals_finish]

theorem displayInv_runEvents (evs : List Event) : DisplayInv (runEvents evs) := by
  rw [runEvents]
  induction evs using List.reverseRecOn with
  | nil => exact displayInv_initState
  | append_singleton evs e ih =>
    rw [List.foldl_append]
    exact displayInv_step _ e ih

/-! ## Concrete states used as claim inputs -/

/-- The state after the key sequence `1 + 2 =`. -/
def chainState : CalcState :=
  runEvents [Event.digit '1', Event.operator Op.add, Event.digit '2', Event.equals]

/-- The state after the key sequence `5 ÷` (a pending divide). -/
def divPendingState : CalcState :=
  runEvents [Event.digit '5', Event.operator Op.div]

/-- The state after the key sequence `5 +` (a pending operator, awaiting a
fresh entry). -/
def opPendingState : CalcState :=
  runEvents [Event.digit '5', Event.operator Op.add]

/-- The state after the key sequence `9 +` (awaiting a fresh entry). -/
def freshAfterOpState : CalcState :=
  runEvents [Event.digit '9', Event.operator Op.add]

/-! ## The claims -/

/-- C1, as stated, is false on the code: in an error state, `on_decimal`
does perform All-Clear first, but `on_all_clear` resets
`reset_next_entry` to `False`, so the handler then appends the decimal
point to the fresh `"0"`; the resulting entry text is `"0."`, not `"0"`.
This theorem exhibits that at a concrete error state. -/
theorem claim1_counterexample :
    errState.error_state = true ∧
    (on_decimal errState).current_text = "0." ∧
    ("0." : String) ≠ "0" := by
  decide

/-- C1 (amended): for every state with `is_error` true, processing a
DecimalPoint event first performs All-Clear and then appends the decimal
point to the fresh entry: the resulting state is the all-clear state with
`entry_text = "0."` (and the display showing the same). -/
theorem claim1_main (s : CalcState) (h : s.error_state = true) :
    on_decimal s = { initState with current_text := "0.", display := "0." } :=
  on_decimal_of_error s h

theorem claim1_witness :
    errState.error_state = true ∧
    on_decimal errState = { initState with current_text := "0.", display := "0." } :=
  ⟨by decide, claim1_main errState (by decide)⟩

/-- C2, as stated, is false on the code: a Digit event in the error state
does change the engine state (it performs All-Clear and then enters the
digit). -/
theorem claim2_counterexample :
    errState.error_state = true ∧ on_digit errState '5' ≠ errState := by
  decide

/-- C2 (amended): while `is_error` is true, Operator, Equals, Percent and
SignToggle events leave the engine state unchanged, but Digit,
DecimalPoint and Backspace first perform All-Clear (and Digit/DecimalPoint
then continue on the cleared state), so those three may change the
state. -/
theorem claim2_main (s : CalcState) (h : s.error_state = true) :
    (∀ op, on_operator s op = s) ∧
    on_equals s = s ∧
    on_percent s = s ∧
    on_toggle_sign s = s ∧
    on_backspace s = on_all_clear s ∧
    (∀ d, on_digit s d = on_digit (on_all_clear s) d) ∧
    on_decimal s = on_decimal (on_all_clear s) := by
  refine ⟨fun op => on_operator_of_error s op h, on_equals_of_error s h,
    on_percent_of_error s h, on_toggle_sign_of_error s h,
    on_backspace_of_error s h, fun d => ?_, ?_⟩
  · rw [on_digit_of_error s d h]
    simp [on_digit, on_all_clear, initState]
  · rw [on_decimal_of_error s h]
    simp [on_decimal, on_all_clear, initState]

theorem claim2_witness :
    errState.error_state = true ∧ on_operator errState Op.add = errState :=
  ⟨by decide, (claim2_main errState (by decide)).1 Op.add⟩

/-- C3, as stated, is false on the code: `on_operator` clears `last_op`
but never writes `last_operand`.  After `1 + 2 =` the remembered operand
is `2`; pressing `+` then leaves `last_operand = 2`, not `0`. -/
theorem claim3_counterexample :
    chainState.error_state = false ∧
    ¬(chainState.pending_op ≠ none ∧ chainState.reset_next_entry = true) ∧
    ¬(chainState.pending_op = some Op.div ∧
      (decimal_from_text chainState.current_text).isZero = true) ∧
    (on_operator chainState Op.add).last_operand = ⟨2, 1⟩ ∧
    (on_operator chainState Op.add).last_operand.isZero = false := by
  decide

/-- C3 (amended): for every non-error state, after an Operator(op) event
that does not merely replace the pending operator and whose commit does
not error, the post-state has `pending_op = op`, `last_op` cleared,
`last_operand` **unchanged** (the code never resets it; it is dead because
`last_op` is cleared), entry text and display both the formatted
accumulator, and `awaiting_fresh_entry = true`. -/
theorem claim3_main (s : CalcState) (op : Op)
    (h1 : s.error_state = false)
    (h2 : ¬(s.pending_op ≠ none ∧ s.reset_next_entry = true))
    (h3 : ¬(s.pending_op = some Op.div ∧
      (decimal_from_text s.current_text).isZero = true)) :
    (on_operator s op).pending_op = some op ∧
    (on_operator s op).last_op = none ∧
    (on_operator s op).last_operand = s.last_operand ∧
    (on_operator s op).current_text = format_decimal (on_operator s op).accumulator ∧
    (on_operator s op).display = format_decimal (on_operator s op).accumulator ∧
    (on_operator s op).reset_next_entry = true ∧
    (on_operator s op).error_state = false := by
  obtain ⟨acc, text, pending, lastop, lastoperand, reset, err, disp⟩ := s
  simp only at h1 h2 h3
  subst h1
  simp only [on_operator, Bool.false_eq_true, if_false]
  rw [if_neg (by simpa using h2)]
  cases pending with
  | none => simp
  | some op0 =>
    have hz : ¬(op0 = Op.div ∧ (decimal_from_text text).isZero = true) := by
      intro hcon
      exact h3 (by simp [hcon.1, hcon.2])
    have he := commit_pending_success
      ⟨acc, text, some op0, lastop, lastoperand, reset, false, disp⟩
      (decimal_from_text text) op0 rfl hz
    simp only [CalcState.accumulator, CalcState.current_text, CalcState.pending_op,
      CalcState.last_op, CalcState.last_operand, CalcState.reset_next_entry,
      CalcState.error_state, CalcState.display] at he
    simp [he]

theorem claim3_witness :
    chainState.error_state = false ∧
    ¬(chainState.pending_op ≠ none ∧ chainState.reset_next_entry = true) ∧
    ¬(chainState.pending_op = some Op.div ∧
      (decimal_from_text chainState.current_text).isZero = true) ∧
    ((on_operator chainState Op.add).pending_op = some Op.add ∧
     (on_operator chainState Op.add).last_op = none ∧
     (on_operator chainState Op.add).last_operand = chainState.last_operand ∧
     (on_operator chainState Op.add).current_text =
       format_decimal (on_operator chainState Op.add).accumulator ∧
     (on_operator chainState Op.add).display =
       format_decimal (on_operator chainState Op.add).accumulator ∧
     (on_operator chainState Op.add).reset_next_entry = true ∧
     (on_operator chainState Op.add).error_state = false) :=
  ⟨by decide, by decide, by decide,
    claim3_main chainState Op.add (by decide) (by decide) (by decide)⟩

/-- C4: a commit against a pending divide with a right operand equal to
zero is exactly `_set_error`: the error state with `pending_op` and
`last_op` cleared, `last_operand = 0`, `awaiting_fresh_entry = true`, the
display forced to `"Error"`, and the accumulator untouched; and a
subsequent Digit(d) event performs All-Clear and starts a fresh entry
displaying `d`. -/
theorem claim4_main (s : CalcState) (rhs : Dec) (d : Char)
    (h : s.pending_op = some Op.div) (hz : rhs.isZero = true) :
    commit_pending s rhs = set_error s ∧
    (commit_pending s rhs).error_state = true ∧
    (commit_pending s rhs).pending_op = none ∧
    (commit_pending s rhs).last_op = none ∧
    (commit_pending s rhs).last_operand = ⟨0, 1⟩ ∧
    (commit_pending s rhs).reset_next_entry = true ∧
    (commit_pending s rhs).display = "Error" ∧
    (commit_pending s rhs).accumulator = s.accumulator ∧
    on_digit (commit_pending s rhs) d =
      { initState with current_text := String.singleton d
                       display := String.singleton d } := by
  have hc : commit_pending s rhs = set_error s := by
    simp [commit_pending, h, hz]
  refine ⟨hc, ?_, ?_, ?_, ?_, ?_, ?_, ?_, ?_⟩ <;> rw [hc]
  · rfl
  · rfl
  · rfl
  · rfl
  · rfl
  · rfl
  · rfl
  · exact on_digit_of_error _ d rfl

theorem claim4_witness :
    divPendingState.pending_op = some Op.div ∧
    (⟨0, 1⟩ : Dec).isZero = true ∧
    (runEvents [Event.digit '5', Event.operator Op.div, Event.digit '0',
      Event.equals]).display = "Error" ∧
    (commit_pending divPendingState ⟨0, 1⟩ = set_error divPendingState ∧
     (commit_pending divPendingState ⟨0, 1⟩).error_state = true ∧
     (commit_pending divPendingState ⟨0, 1⟩).pending_op = none ∧
     (commit_pending divPendingState ⟨0, 1⟩).last_op = none ∧
     (commit_pending divPendingState ⟨0, 1⟩).last_operand = ⟨0, 1⟩ ∧
     (commit_pending divPendingState ⟨0, 1⟩).reset_next_entry = true ∧
     (commit_pending divPendingState ⟨0, 1⟩).display = "Error" ∧
     (commit_pending divPendingState ⟨0, 1⟩).accumulator = divPendingState.accumulator ∧
     on_digit (commit_pending divPendingState ⟨0, 1⟩) '7' =
       { initState with current_text := String.singleton '7'
                        display := String.singleton '7' }) :=
  ⟨by decide, by decide, by decide,
    claim4_main divPendingState ⟨0, 1⟩ '7' (by decide) (by decide)⟩

/-- C5: in every reachable non-error state with no pending operator but a
remembered `last_op`, an Equals event commits
`accumulator := accumulator last_op last_operand` and leaves both
`last_op` and `last_operand` unchanged (and `pending_op` stays empty and
no error arises, so each further Equals repeats the same operation).
Reachability supplies the invariant that the remembered operation is
never a division by zero. -/
theorem claim5_main (s : CalcState) (op : Op)
    (hr : Reachable s) (h1 : s.error_state = false) (h2 : s.pending_op = none)
    (h3 : s.last_op = some op) :
    (on_equals s).accumulator = applyOp op s.accumulator s.last_operand ∧
    (on_equals s).last_op = some op ∧
    (on_equals s).last_operand = s.last_operand ∧
    (on_equals s).pending_op = none ∧
    (on_equals s).error_state = false ∧
    (on_equals s).current_text = format_decimal (on_equals s).accumulator ∧
    (on_equals s).reset_next_entry = true := by
  obtain ⟨evs, hevs⟩ := hr
  have hinv : LastOpInv s := hevs ▸ lastOpInv_runEvents evs
  have hz : ¬(op = Op.div ∧ s.last_operand.isZero = true) := by
    rintro ⟨hd, hzz⟩
    rw [hd] at h3
    rw [hinv h3] at hzz
    cases hzz
  obtain ⟨acc, text, pending, lastop, lastoperand, reset, err, disp⟩ := s
  simp only at h1 h2 h3 hz ⊢
  subst h1
  subst h2
  subst h3
  simp only [on_equals, Bool.false_eq_true, if_false]
  have he := commit_pending_success
    ⟨acc, text, some op, some op, lastoperand, reset, false, disp⟩
    lastoperand op rfl hz
  simp only [CalcState.accumulator, CalcState.current_text, CalcState.pending_op,
    CalcState.last_op, CalcState.last_operand, CalcState.reset_next_entry,
    CalcState.error_state, CalcState.display] at he
  simp [he, equals_finish]

theorem claim5_witness :
    chainState.error_state = false ∧
    chainState.pending_op = none ∧
    chainState.last_op = some Op.add ∧
    chainState.display = "3" ∧
    (runEvents [Event.digit '1', Event.operator Op.add, Event.digit '2',
      Event.equals, Event.equals]).display = "5" ∧
    ((on_equals chainState).accumulator =
       applyOp Op.add chainState.accumulator chainState.last_operand ∧
     (on_equals chainState).last_op = some Op.add ∧
     (on_equals chainState).last_operand = chainState.last_operand ∧
     (on_equals chainState).pending_op = none ∧
     (on_equals chainState).error_state = false ∧
     (on_equals chainState).current_text =
       format_decimal (on_equals chainState).accumulator ∧
     (on_equals chainState).reset_next_entry = true) :=
  ⟨by decide, by decide, by decide, by decide, by decide,
    claim5_main chainState Op.add
      ⟨[Event.digit '1', Event.operator Op.add, Event.digit '2', Event.equals], rfl⟩
      (by decide) (by decide) (by decide)⟩

/-- C6: in a non-error state with a pending operator and
`awaiting_fresh_entry` true, an Operator(op) event only replaces the
pending operator — no commit, no operand consumed, nothing else
changes. -/
theorem claim6_main (s : CalcState) (op : Op)
    (h1 : s.error_state = false) (h2 : s.pending_op ≠ none)
    (h3 : s.reset_next_entry = true) :
    on_operator s op = { s with pending_op := some op } := by
  simp only [on_operator, h1, Bool.false_eq_true, if_false]
  rw [if_pos ⟨h2, h3⟩]

theorem claim6_witness :
    opPendingState.error_state = false ∧
    opPendingState.pending_op ≠ none ∧
    opPendingState.reset_next_entry = true ∧
    (runEvents [Event.digit '5', Event.operator Op.add, Event.operator Op.mul,
      Event.digit '3', Event.equals]).display = "15" ∧
    on_operator opPendingState Op.mul = { opPendingState with pending_op := some Op.mul } :=
  ⟨by decide, by decide, by decide, by decide,
    claim6_main opPendingState Op.mul (by decide) (by decide) (by decide)⟩

/-- C7: the clear-button label is `"AC"` exactly when `is_error` is true
or the engine is fully reset (`entry_text = "0"`, zero accumulator, no
pending operator, no fresh-entry reset pending); in every other state it
is `"C"`. -/
theorem claim7_main (s : CalcState) :
    (clearLabel s = "AC" ↔
      (s.error_state = true ∨
        (s.current_text = "0" ∧ s.accumulator.isZero = true ∧
         s.pending_op = none ∧ s.reset_next_entry = false))) ∧
    (clearLabel s = "C" ↔
      ¬(s.error_state = true ∨
        (s.current_text = "0" ∧ s.accumulator.isZero = true ∧
         s.pending_op = none ∧ s.reset_next_entry = false))) := by
  unfold clearLabel
  split_ifs with hE hA
  · exact ⟨⟨fun _ => Or.inl hE, fun _ => rfl⟩,
      ⟨fun hC => absurd hC (by decide), fun hn => absurd (Or.inl hE) hn⟩⟩
  · exact ⟨⟨fun _ => Or.inr hA, fun _ => rfl⟩,
      ⟨fun hC => absurd hC (by decide), fun hn => absurd (Or.inr hA) hn⟩⟩
  · refine ⟨⟨fun hAC => absurd hAC (by decide), fun hor => ?_⟩,
      ⟨fun _ => ?_, fun _ => rfl⟩⟩
    · rcases hor with hx | hx
      · exact absurd hx hE
      · exact absurd hx hA
    · rintro (hx | hx)
      · exact hE hx
      · exact hA hx

/-- C9: along every event sequence from the initial state, the display
equals the entry text whenever the engine is not in the error state, and
reads `"Error"` whenever it is. -/
theorem claim9_main (evs : List Event) :
    ((runEvents evs).error_state = false →
      (runEvents evs).display = (runEvents evs).current_text) ∧
    ((runEvents evs).error_state = true → (runEvents evs).display = "Error") :=
  displayInv_runEvents evs

theorem claim9_witness :
    (runEvents [Event.digit '5', Event.operator Op.div, Event.digit '0',
      Event.equals]).error_state = true ∧
    (runEvents [Event.digit '5', Event.operator Op.div, Event.digit '0',
      Event.equals]).display = "Error" ∧
    (runEvents [Event.digit '7']).error_state = false ∧
    (runEvents [Event.digit '7']).display = (runEvents [Event.digit '7']).current_text :=
  ⟨by decide,
    (claim9_main [Event.digit '5', Event.operator Op.div, Event.digit '0',
      Event.equals]).2 (by decide),
    by decide,
    (claim9_main [Event.digit '7']).1 (by decide)⟩

/-- C10: in a non-error state with `awaiting_fresh_entry` true, Percent
and SignToggle rewrite the entry text (and display) in place and change
nothing else — in particular they neither consult nor clear the flag, so
the next digit still starts a fresh entry. -/
theorem claim10_main (s : CalcState) (d : Char)
    (h1 : s.error_state = false) (h2 : s.reset_next_entry = true) :
    on_percent s = { s with
      current_text := format_decimal ((decimal_from_text s.current_text).div ⟨100, 1⟩)
      display := format_decimal ((decimal_from_text s.current_text).div ⟨100, 1⟩) } ∧
    (on_percent s).reset_next_entry = true ∧
    (on_percent s).accumulator = s.accumulator ∧
    (on_percent s).pending_op = s.pending_op ∧
    (on_percent s).last_op = s.last_op ∧
    (on_percent s).last_operand = s.last_operand ∧
    (on_percent s).error_state = false ∧
    on_toggle_sign s = { s with
      current_text := (on_toggle_sign s).current_text
      display := (on_toggle_sign s).current_text } ∧
    (on_toggle_sign s).reset_next_entry = true ∧
    (on_toggle_sign s).accumulator = s.accumulator ∧
    (on_toggle_sign s).pending_op = s.pending_op ∧
    (on_toggle_sign s).last_op = s.last_op ∧
    (on_toggle_sign s).last_operand = s.last_operand ∧
    (on_toggle_sign s).error_state = false ∧
    (on_digit (on_percent s) d).current_text = String.singleton d ∧
    (on_digit (on_toggle_sign s) d).current_text = String.singleton d := by
  have hp := on_percent_eq s h1
  have ht := on_toggle_sign_eq s h1
  refine ⟨hp, ?_, ?_, ?_, ?_, ?_, ?_, ht, ?_, ?_, ?_, ?_, ?_, ?_, ?_, ?_⟩
  · rw [hp]; exact h2
  · rw [hp]
  · rw [hp]
  · rw [hp]
  · rw [hp]
  · rw [hp]; exact h1
  · rw [ht]; exact h2
  · rw [ht]
  · rw [ht]
  · rw [ht]
  · rw [ht]
  · rw [ht]; exact h1
  · rw [hp]
    simp [on_digit, h1, h2]
  · rw [ht]
    simp [on_digit, h1, h2]

theorem claim10_witness :
    freshAfterOpState.error_state = false ∧
    freshAfterOpState.reset_next_entry = true ∧
    (on_percent (runEvents [Event.digit '9'])).display = "0.09" ∧
    (on_percent freshAfterOpState = { freshAfterOpState with
      current_text := format_decimal
        ((decimal_from_text freshAfterOpState.current_text).div ⟨100, 1⟩)
      display := format_decimal
        ((decimal_from_text freshAfterOpState.current_text).div ⟨100, 1⟩) } ∧
     (on_percent freshAfterOpState).reset_next_entry = true ∧
     (on_percent freshAfterOpState).accumulator = freshAfterOpState.accumulator ∧
     (on_percent freshAfterOpState).pending_op = freshAfterOpState.pending_op ∧
     (on_percent freshAfterOpState).last_op = freshAfterOpState.last_op ∧
     (on_percent freshAfterOpState).last_operand = freshAfterOpState.last_operand ∧
     (on_percent freshAfterOpState).error_state = false ∧
     on_toggle_sign freshAfterOpState = { freshAfterOpState with
       current_text := (on_toggle_sign freshAfterOpState).current_text
       display := (on_toggle_sign freshAfterOpState).current_text } ∧
     (on_toggle_sign freshAfterOpState).reset_next_entry = true ∧
     (on_toggle_sign freshAfterOpState).accumulator = freshAfterOpState.accumulator ∧
     (on_toggle_sign freshAfterOpState).pending_op = freshAfterOpState.pending_op ∧
     (on_toggle_sign freshAfterOpState).last_op = freshAfterOpState.last_op ∧
     (on_toggle_sign freshAfterOpState).last_operand = freshAfterOpState.last_operand ∧
     (on_toggle_sign freshAfterOpState).error_state = false ∧
     (on_digit (on_percent freshAfterOpState) '3').current_text = String.singleton '3' ∧
     (on_digit (on_toggle_sign freshAfterOpState) '3').current_text = String.singleton '3') :=
  ⟨by decide, by decide, by decide,
    claim10_main freshAfterOpState '3' (by decide) (by decide)⟩

/-! ## Digit characters -/

theorem digitChar_toNat (d : Nat) (h : d < 10) : (digitChar d).toNat = 48 + d := by
  interval_cases d <;> decide

theorem digitVal_digitChar (d : Nat) (h : d < 10) : digitVal (digitChar d) = d := by
  rw [digitVal, digitChar_toNat d h]
  omega

theorem isDigitC_digitChar (d : Nat) (h : d < 10) : isDigitC (digitChar d) = true := by
  interval_cases d <;> decide

theorem isDigitC_spec (c : Char) (h : isDigitC c = true) :
    48 ≤ c.toNat ∧ c.toNat ≤ 57 := by
  simpa [isDigitC] using h

theorem digitChar_digitVal (c : Char) (h : isDigitC c = true) :
    digitChar (digitVal c) = c := by
  obtain ⟨h1, _⟩ := isDigitC_spec c h
  rw [digitChar, digitVal]
  rw [Nat.add_sub_cancel' h1]
  exact Char.ofNat_toNat c

theorem digitVal_lt (c : Char) (h : isDigitC c = true) : digitVal c < 10 := by
  obtain ⟨h1, h2⟩ := isDigitC_spec c h
  rw [digitVal]
  omega

theorem ne_dot_of_isDigitC (c : Char) (h : isDigitC c = true) : c ≠ '.' := by
  rintro rfl
  simp [isDigitC] at h

theorem ne_dash_of_isDigitC (c : Char) (h : isDigitC c = true) : c ≠ '-' := by
  rintro rfl
  simp [isDigitC] at h

theorem digitVal_eq_zero_iff (c : Char) (h : isDigitC c = true) :
    digitVal c = 0 ↔ c = '0' := by
  constructor
  · intro hv
    have := digitChar_digitVal c h
    rw [hv] at this
    rw [← this]
    rfl
  · rintro rfl
    rfl

/-! ## Reading digit strings -/

theorem readNat_nil : readNat [] = 0 := rfl

theorem foldl_readNat (cs : List Char) (a : Nat) :
    cs.foldl (fun x c => 10 * x + digitVal c) a = a * 10 ^ cs.length + readNat cs := by
  induction cs generalizing a with
  | nil => simp [readNat]
  | cons c t ih =>
    rw [List.foldl_cons, ih]
    have h2 : readNat (c :: t) = digitVal c * 10 ^ t.length + readNat t := by
      show List.foldl _ 0 (c :: t) = _
      rw [List.foldl_cons, ih]
      norm_num
    rw [h2, List.length_cons]
    ring

theorem readNat_cons (c : Char) (cs : List Char) :
    readNat (c :: cs) = digitVal c * 10 ^ cs.length + readNat cs := by
  show List.foldl _ 0 (c :: cs) = _
  rw [List.foldl_cons, foldl_readNat]
  norm_num

theorem readNat_append (xs ys : List Char) :
    readNat (xs ++ ys) = readNat xs * 10 ^ ys.length + readNat ys := by
  show List.foldl _ 0 (xs ++ ys) = _
  rw [List.foldl_append, foldl_readNat]
  rfl

theorem readNat_singleton (c : Char) : readNat [c] = digitVal c := by
  rw [readNat_cons]
  simp [readNat]

theorem readNat_lt (cs : List Char) (h : ∀ c ∈ cs, isDigitC c = true) :
    readNat cs < 10 ^ cs.length := by
  induction cs with
  | nil => simp [readNat]
  | cons c t ih =>
    rw [readNat_cons, List.length_cons, pow_succ]
    have h1 : digitVal c < 10 := digitVal_lt c (h c (List.mem_cons_self c t))
    have h2 : readNat t < 10 ^ t.length := ih (fun x hx => h x (List.mem_cons_of_mem c hx))
    calc digitVal c * 10 ^ t.length + readNat t
        < digitVal c * 10 ^ t.length + 10 ^ t.length := by omega
      _ = (digitVal c + 1) * 10 ^ t.length := by ring
      _ ≤ 10 * 10 ^ t.length := by
          have : digitVal c + 1 ≤ 10 := by omega
          exact Nat.mul_le_mul_right _ this
      _ = 10 ^ t.length * 10 := by ring

theorem readNat_replicate_zero (k : Nat) : readNat (List.replicate k '0') = 0 := by
  induction k with
  | zero => rfl
  | succ n ih =>
    rw [List.replicate_succ, readNat_cons, ih]
    simp [digitVal]

/-! ## Rendering natural numbers -/

theorem natCharsAux_fuel (f1 f2 n : Nat) (h1 : n < f1) (h2 : n < f2) :
    natCharsAux f1 n = natCharsAux f2 n := by
  induction n using Nat.strong_induction_on generalizing f1 f2 with
  | _ n ih =>
    match f1, f2 with
    | fa + 1, fb + 1 =>
      rw [natCharsAux, natCharsAux]
      by_cases hn : n < 10
      · simp [hn]
      · simp only [hn, if_false]
        have hd : n / 10 < n := Nat.div_lt_self (by omega) (by omega)
        rw [ih (n / 10) hd fa fb (by omega) (by omega)]

theorem natChars_lt10 (n : Nat) (h : n < 10) : natChars n = [digitChar n] := by
  rw [natChars, natCharsAux]
  simp [h]

theorem natChars_ge10 (n : Nat) (h : 10 ≤ n) :
    natChars n = natChars (n / 10) ++ [digitChar (n % 10)] := by
  rw [natChars, natCharsAux]
  have hn : ¬n < 10 := by omega
  simp only [hn, if_false]
  rw [natChars, natCharsAux_fuel n (n / 10 + 1) (n / 10)
    (Nat.div_lt_self (by omega) (by omega)) (Nat.lt_succ_self _)]

theorem readNat_natChars (n : Nat) : readNat (natChars n) = n := by
  induction n using Nat.strong_induction_on with
  | _ n ih =>
    by_cases h : n < 10
    · rw [natChars_lt10 n h, readNat_singleton, digitVal_digitChar n h]
    · rw [natChars_ge10 n (by omega), readNat_append, readNat_singleton,
        ih (n / 10) (Nat.div_lt_self (by omega) (by omega)),
        digitVal_digitChar (n % 10) (Nat.mod_lt n (by omega))]
      simp only [List.length_singleton, pow_one]
      omega

theorem natChars_all_digits (n : Nat) : ∀ c ∈ natChars n, isDigitC c = true := by
  induction n using Nat.strong_induction_on with
  | _ n ih =>
    by_cases h : n < 10
    · rw [natChars_lt10 n h]
      intro c hc
      rw [List.mem_singleton] at hc
      rw [hc]
      exact isDigitC_digitChar n h
    · rw [natChars_ge10 n (by omega)]
      intro c hc
      rw [List.mem_append] at hc
      rcases hc with hc | hc
      · exact ih (n / 10) (Nat.div_lt_self (by omega) (by omega)) c hc
      · rw [List.mem_singleton] at hc
        rw [hc]
        exact isDigitC_digitChar (n % 10) (Nat.mod_lt n (by omega))

theorem natChars_ne_nil (n : Nat) : natChars n ≠ [] := by
  by_cases h : n < 10
  · rw [natChars_lt10 n h]
    simp
  · rw [natChars_ge10 n (by omega)]
    simp

theorem dot_not_mem_natChars (n : Nat) : '.' ∉ natChars n := by
  intro hmem
  exact ne_dot_of_isDigitC '.' (natChars_all_digits n '.' hmem) rfl

theorem natChars_length_le (n k : Nat) (hk : 1 ≤ k) (h : n < 10 ^ k) :
    (natChars n).length ≤ k := by
  induction n using Nat.strong_induction_on generalizing k with
  | _ n ih =>
    by_cases hn : n < 10
    · rw [natChars_lt10 n hn]
      simpa using hk
    · rw [natChars_ge10 n (by omega), List.length_append, List.length_singleton]
      have hk2 : 2 ≤ k := by
        by_contra hcon
        have : k = 1 := by omega
        rw [this, pow_one] at h
        omega
      have hdiv : n / 10 < 10 ^ (k - 1) := by
        have h10 : (10 : Nat) ^ k = 10 ^ (k - 1) * 10 := by
          rw [← pow_succ]
          congr 1
          omega
        rw [h10] at h
        exact Nat.div_lt_of_lt_mul (by omega)
      have := ih (n / 10) (Nat.div_lt_self (by omega) (by omega)) (k - 1) (by omega) hdiv
      omega

theorem natChars_head_ne_zero (n : Nat) (h : n ≠ 0) :
    (natChars n).head? ≠ some '0' := by
  induction n using Nat.strong_induction_on with
  | _ n ih =>
    by_cases hn : n < 10
    · rw [natChars_lt10 n hn]
      intro hc
      simp only [List.head?_cons, Option.some.injEq] at hc
      have : digitVal (digitChar n) = digitVal '0' := by rw [hc]
      rw [digitVal_digitChar n hn] at this
      simp [digitVal] at this
      exact h this
    · rw [natChars_ge10 n (by omega)]
      have hne := natChars_ne_nil (n / 10)
      have hd : n / 10 ≠ 0 := by
        intro hcon
        have := Nat.div_eq_zero_iff (by omega : 0 < 10) |>.1 hcon
        omega
      intro hc
      apply ih (n / 10) (Nat.div_lt_self (by omega) (by omega)) hd
      rw [← hc]
      rw [List.head?_append_of_ne_nil]
      exact hne

theorem readNat_pos_of_head (xs : List Char) (hne : xs ≠ [])
    (hd : ∀ c ∈ xs, isDigitC c = true) (hz : xs.head? ≠ some '0') :
    1 ≤ readNat xs := by
  match xs with
  | c :: t =>
    rw [readNat_cons]
    have hc : isDigitC c = true := hd c (List.mem_cons_self c t)
    have hv : digitVal c ≠ 0 := by
      intro hv
      exact hz (by rw [List.head?_cons, (digitVal_eq_zero_iff c hc).1 hv])
    have hpow : 1 ≤ 10 ^ t.length := Nat.one_le_pow _ _ (by omega)
    have h1 : 1 ≤ digitVal c := Nat.pos_of_ne_zero hv
    nlinarith

theorem natChars_readNat_of_head (xs : List Char) (hne : xs ≠ [])
    (hd : ∀ c ∈ xs, isDigitC c = true) (hz : xs.head? ≠ some '0') :
    natChars (readNat xs) = xs := by
  induction xs using List.reverseRecOn with
  | nil => exact absurd rfl hne
  | append_singleton ys c ih =>
    by_cases hysne : ys = []
    · subst hysne
      simp only [List.nil_append] at hd hz ⊢
      have hc : isDigitC c = true := hd c (by simp)
      rw [readNat_singleton, natChars_lt10 (digitVal c) (digitVal_lt c hc),
        digitChar_digitVal c hc]
    · have hdys : ∀ x ∈ ys, isDigitC x = true := fun x hx =>
        hd x (List.mem_append_left _ hx)
      have hzys : ys.head? ≠ some '0' := by
        rw [← List.head?_append_of_ne_nil _ hysne]
        exact hz
      have hpos : 1 ≤ readNat ys := readNat_pos_of_head ys hysne hdys hzys
      have hc : isDigitC c = true := hd c (List.mem_append_right _ (by simp))
      have hvc : digitVal c < 10 := digitVal_lt c hc
      rw [readNat_append, readNat_singleton, List.length_singleton, pow_one]
      have h10 : 10 ≤ readNat ys * 10 + digitVal c := by nlinarith
      rw [natChars_ge10 _ h10]
      have hdiv : (readNat ys * 10 + digitVal c) / 10 = readNat ys := by omega
      have hmod : (readNat ys * 10 + digitVal c) % 10 = digitVal c := by omega
      rw [hdiv, hmod, ih hysne hdys hzys, digitChar_digitVal c hc]

theorem padZeros_readNat (ds : List Char) (hne : ds ≠ [])
    (hd : ∀ c ∈ ds, isDigitC c = true) :
    padZeros ds.length (natChars (readNat ds)) = ds := by
  induction ds with
  | nil => exact absurd rfl hne
  | cons c t ih =>
    by_cases hc0 : c = '0'
    · subst hc0
      have hread : readNat ('0' :: t) = readNat t := by
        rw [readNat_cons]
        simp [digitVal]
      rw [hread]
      by_cases ht : t = []
      · subst ht
        rw [readNat_nil, padZeros]
        simp [natChars_lt10 0 (by omega)]
        rfl
      · have hdt : ∀ x ∈ t, isDigitC x = true := fun x hx =>
          hd x (List.mem_cons_of_mem _ hx)
        have hlen : (natChars (readNat t)).length ≤ t.length := by
          apply natChars_length_le
          · have := List.length_pos.2 ht
            omega
          · exact readNat_lt t hdt
        rw [padZeros, List.length_cons]
        have harith : t.length + 1 - (natChars (readNat t)).length =
            (t.length - (natChars (readNat t)).length) + 1 := by omega
        rw [harith, List.replicate_succ, List.cons_append]
        have hih := ih ht hdt
        rw [padZeros] at hih
        rw [hih]
    · have hc : isDigitC c = true := hd c (List.mem_cons_self c t)
      have hhead : (c :: t).head? ≠ some '0' := by
        rw [List.head?_cons]
        intro hcon
        exact hc0 (by injection hcon)
      rw [natChars_readNat_of_head (c :: t) (by simp) hd hhead, padZeros]
      simp

/-! ## Stripping and splitting -/

theorem dropWhile_head_false {α : Type} (p : α → Bool) (l : List α) (a : α)
    (h : (l.dropWhile p).head? = some a) : p a = false := by
  induction l with
  | nil => simp [List.dropWhile] at h
  | cons c t ih =>
    rw [List.dropWhile_cons] at h
    by_cases hp : p c = true
    · rw [if_pos hp] at h
      exact ih h
    · rw [if_neg hp] at h
      rw [List.head?_cons] at h
      injection h with h
      subst h
      exact Bool.eq_false_iff.2 hp

theorem dropWhile_of_head_false {α : Type} (p : α → Bool) (l : List α)
    (h : ∀ a, l.head? = some a → p a = false) : l.dropWhile p = l := by
  cases l with
  | nil => rfl
  | cons c t =>
    rw [List.dropWhile_cons, if_neg]
    rw [h c (List.head?_cons)]
    simp

theorem rstripChar_decomp (c : Char) (cs : List Char) :
    cs = rstripChar c cs ++
      List.replicate (cs.length - (rstripChar c cs).length) c := by
  have hsplit := List.takeWhile_append_dropWhile (fun a => a == c) cs.reverse
  have htake : List.takeWhile (fun a => a == c) cs.reverse =
      List.replicate (List.takeWhile (fun a => a == c) cs.reverse).length c := by
    rw [List.eq_replicate_iff]
    exact ⟨rfl, fun b hb => by simpa using List.mem_takeWhile_imp hb⟩
  have hlensum : (List.takeWhile (fun a => a == c) cs.reverse).length +
      (List.dropWhile (fun a => a == c) cs.reverse).length = cs.length := by
    have hlen2 := congrArg List.length hsplit
    rw [List.length_append, List.length_reverse] at hlen2
    exact hlen2
  rw [rstripChar]
  conv_lhs => rw [← List.reverse_reverse cs, ← hsplit]
  rw [List.reverse_append, htake, List.reverse_replicate]
  simp only [List.length_reverse]
  congr 2
  omega

theorem rstripChar_getLast (c : Char) (cs : List Char) (a : Char)
    (h : (rstripChar c cs).getLast? = some a) : a ≠ c := by
  rw [rstripChar, List.getLast?_reverse] at h
  have := dropWhile_head_false (fun a => a == c) cs.reverse a h
  simpa using this

theorem rstripChar_of_getLast (c : Char) (cs : List Char)
    (h : ∀ a, cs.getLast? = some a → a ≠ c) : rstripChar c cs = cs := by
  rw [rstripChar, dropWhile_of_head_false, List.reverse_reverse]
  intro a ha
  rw [← List.getLast?_reverse] at ha
  simp only [List.reverse_reverse] at ha
  simpa using h a ha

theorem rstripChar_subset (c : Char) (cs : List Char) :
    ∀ x ∈ rstripChar c cs, x ∈ cs := by
  intro x hx
  rw [rstripChar, List.mem_reverse] at hx
  have hmem := (List.dropWhile_sublist (fun a => a == c)).subset hx
  rw [List.mem_reverse] at hmem
  exact hmem

theorem splitDot_no_dot (cs : List Char) (h : '.' ∉ cs) :
    splitDot cs = (cs, none) := by
  induction cs with
  | nil => rfl
  | cons c t ih =>
    rw [splitDot]
    have hc : ¬c = '.' := fun hcon => h (hcon ▸ List.mem_cons_self c t)
    rw [if_neg hc, ih (fun hm => h (List.mem_cons_of_mem c hm))]

theorem splitDot_append_dot (a b : List Char) (h : '.' ∉ a) :
    splitDot (a ++ '.' :: b) = (a, some b) := by
  induction a with
  | nil =>
    rw [List.nil_append, splitDot, if_pos rfl]
  | cons c t ih =>
    rw [List.cons_append, splitDot]
    have hc : ¬c = '.' := fun hcon => h (hcon ▸ List.mem_cons_self c t)
    rw [if_neg hc, ih (fun hm => h (List.mem_cons_of_mem c hm))]

theorem stripSignChars_of_head (cs : List Char) (h : cs.head? ≠ some '-') :
    stripSignChars cs = (false, cs) := by
  match cs with
  | [] => rfl
  | c :: t =>
    rw [List.head?_cons] at h
    have hc : ¬c = '-' := fun hcon => h (by rw [hcon])
    rw [stripSignChars, if_neg hc]

theorem stripSignChars_dash (cs : List Char) :
    stripSignChars ('-' :: cs) = (true, cs) := rfl

theorem getLast?_cons_ne_nil {α : Type} (a : α) (t : List α) (h : t ≠ []) :
    (a :: t).getLast? = t.getLast? := by
  match t with
  | c :: u => rw [List.getLast?_cons_cons]

theorem rstripChar_append_cons (c y : Char) (xs ys : List Char) (hy : y ≠ c) :
    rstripChar c (xs ++ y :: ys) = xs ++ y :: rstripChar c ys := by
  rw [rstripChar, List.reverse_append, List.reverse_cons, List.append_assoc,
    List.dropWhile_append]
  by_cases he : (List.dropWhile (fun a => a == c) ys.reverse).isEmpty = true
  · rw [if_pos he, List.singleton_append, List.dropWhile_cons, if_neg (by simp [hy])]
    rw [List.reverse_cons, rstripChar]
    rw [List.isEmpty_iff] at he
    rw [he]
    simp
  · rw [if_neg he, rstripChar]
    rw [List.reverse_append, List.reverse_append, List.reverse_cons]
    simp

theorem rstripChar_dot_append (IC : List Char) (hIC : '.' ∉ IC) :
    rstripChar '.' (IC ++ ['.']) = IC := by
  rw [rstripChar, List.reverse_append]
  simp only [List.reverse_cons, List.reverse_nil, List.nil_append, List.singleton_append]
  rw [List.dropWhile_cons, if_pos (by simp)]
  rw [dropWhile_of_head_false _ _ ?_, List.reverse_reverse]
  intro a ha
  have hmem : a ∈ IC := by
    rw [← List.mem_reverse]
    exact List.mem_of_mem_head? ha
  have : a ≠ '.' := fun hcon => hIC (hcon ▸ hmem)
  simpa using this

theorem stripText_split (IC FC : List Char) (hIC : '.' ∉ IC) (hFC : '.' ∉ FC) :
    stripText (IC ++ '.' :: FC) =
      if rstripChar '0' FC = [] then IC
      else IC ++ '.' :: rstripChar '0' FC := by
  have hdot : '.' ∈ IC ++ '.' :: FC :=
    List.mem_append_right _ (List.mem_cons_self _ _)
  rw [stripText, if_pos hdot]
  rw [rstripChar_append_cons '0' '.' IC FC (by decide)]
  by_cases hz : rstripChar '0' FC = []
  · rw [if_pos hz, hz]
    exact rstripChar_dot_append IC hIC
  · rw [if_neg hz]
    apply rstripChar_of_getLast
    intro a ha
    rw [List.getLast?_append] at ha
    rw [getLast?_cons_ne_nil '.' _ hz] at ha
    obtain ⟨b, hb⟩ : ∃ b, (rstripChar '0' FC).getLast? = some b := by
      cases hfc : (rstripChar '0' FC).getLast? with
      | none => exact absurd (List.getLast?_eq_none_iff.1 hfc) hz
      | some b => exact ⟨b, rfl⟩
    rw [hb] at ha
    simp only [Option.or] at ha
    injection ha with ha
    subst ha
    have hmem : b ∈ FC := rstripChar_subset '0' FC b (List.mem_of_mem_getLast? hb)
    exact fun hcon => hFC (hcon ▸ hmem)

/-! ## The rendering exponent -/

theorem decExpAux_pow (k : Nat) : ∀ fuel, 10 ^ k ≤ fuel → decExpAux fuel (10 ^ k) = k := by
  induction k with
  | zero =>
    intro fuel h
    rw [pow_zero] at *
    cases fuel with
    | zero => omega
    | succ f =>
      rw [decExpAux]
      norm_num
  | succ k ih =>
    intro fuel h
    have hge : 10 ≤ 10 ^ (k + 1) := by
      calc (10 : Nat) = 10 ^ 1 := (pow_one 10).symm
        _ ≤ 10 ^ (k + 1) := Nat.pow_le_pow_right (by omega) (by omega)
    cases fuel with
    | zero => omega
    | succ f =>
      rw [decExpAux]
      rw [if_pos (by omega)]
      have hmod : 10 ^ (k + 1) % 10 = 0 := by
        rw [pow_succ]
        omega
      rw [if_pos hmod]
      have hdiv : 10 ^ (k + 1) / 10 = 10 ^ k := by
        rw [pow_succ]
        omega
      rw [hdiv, ih f ?_]
      have : 10 ^ k < 10 ^ (k + 1) := Nat.pow_lt_pow_right (by omega) (by omega)
      omega

theorem decExp_pow (k : Nat) : decExp (10 ^ k) = k :=
  decExpAux_pow k (10 ^ k) le_rfl

/-! ## The shape of formatted output -/

theorem padZeros_digits (k : Nat) (cs : List Char) (h : ∀ c ∈ cs, isDigitC c = true) :
    ∀ c ∈ padZeros k cs, isDigitC c = true := by
  intro c hc
  rw [padZeros, List.mem_append] at hc
  rcases hc with hc | hc
  · rw [List.eq_of_mem_replicate hc]
    decide
  · exact h c hc

theorem readNat_padZeros (k : Nat) (cs : List Char) :
    readNat (padZeros k cs) = readNat cs := by
  rw [padZeros, readNat_append, readNat_replicate_zero]
  simp

theorem fmtChars_shape (n : Int) (k : Nat) (hn : n ≠ 0) :
    ∃ body : List Char,
      fmtChars ⟨n, 10 ^ k⟩ = (if n < 0 then ['-'] else []) ++ body ∧
      ((∃ ipn : Nat, ipn ≠ 0 ∧ body = natChars ipn) ∨
       (∃ ipn : Nat, ∃ FCp : List Char, body = natChars ipn ++ '.' :: FCp ∧
         FCp ≠ [] ∧ (∀ c ∈ FCp, isDigitC c = true) ∧ FCp.getLast? ≠ some '0')) := by
  have hpos : (0 : Nat) < 10 ^ k := pow_pos (by omega) k
  have hne : n.natAbs ≠ 0 := Int.natAbs_ne_zero.2 hn
  simp only [fmtChars, decExp_pow]
  rw [if_neg hn, Nat.mul_div_cancel _ hpos]
  rcases Nat.eq_zero_or_pos k with hk | hk
  · subst hk
    have hfp : fixedPointChars n.natAbs 0 = natChars n.natAbs := by
      rw [fixedPointChars, if_pos rfl]
    rw [hfp, stripText, if_neg (dot_not_mem_natChars n.natAbs),
      if_neg (natChars_ne_nil n.natAbs)]
    exact ⟨natChars n.natAbs, rfl, Or.inl ⟨n.natAbs, hne, rfl⟩⟩
  · have hfp : fixedPointChars n.natAbs k = natChars (n.natAbs / 10 ^ k) ++
        '.' :: padZeros k (natChars (n.natAbs % 10 ^ k)) := by
      rw [fixedPointChars, if_neg (by omega)]
    have hICdot : '.' ∉ natChars (n.natAbs / 10 ^ k) := dot_not_mem_natChars _
    have hFCdot : '.' ∉ padZeros k (natChars (n.natAbs % 10 ^ k)) := by
      intro hmem
      exact ne_dot_of_isDigitC '.'
        (padZeros_digits k _ (natChars_all_digits _) '.' hmem) rfl
    rw [hfp, stripText_split _ _ hICdot hFCdot]
    by_cases hz : rstripChar '0' (padZeros k (natChars (n.natAbs % 10 ^ k))) = []
    · rw [if_pos hz]
      have hmod : n.natAbs % 10 ^ k = 0 := by
        have h1 : readNat (padZeros k (natChars (n.natAbs % 10 ^ k))) =
            n.natAbs % 10 ^ k := by
          rw [readNat_padZeros, readNat_natChars]
        have hdecomp := rstripChar_decomp '0'
          (padZeros k (natChars (n.natAbs % 10 ^ k)))
        rw [hz, List.nil_append] at hdecomp
        rw [hdecomp, readNat_replicate_zero] at h1
        omega
      have hip : n.natAbs / 10 ^ k ≠ 0 := by
        intro hcon
        have := Nat.div_add_mod n.natAbs (10 ^ k)
        rw [hcon, hmod] at this
        simp at this
        exact hne this.symm
      rw [if_neg (natChars_ne_nil _)]
      exact ⟨natChars (n.natAbs / 10 ^ k), rfl, Or.inl ⟨n.natAbs / 10 ^ k, hip, rfl⟩⟩
    · have hbody_ne : natChars (n.natAbs / 10 ^ k) ++ '.' ::
          rstripChar '0' (padZeros k (natChars (n.natAbs % 10 ^ k))) ≠ [] := by simp
      rw [if_neg hz, if_neg hbody_ne]
      refine ⟨natChars (n.natAbs / 10 ^ k) ++ '.' ::
        rstripChar '0' (padZeros k (natChars (n.natAbs % 10 ^ k))), rfl,
        Or.inr ⟨n.natAbs / 10 ^ k, _, rfl, hz, ?_, ?_⟩⟩
      · intro c hc
        exact padZeros_digits k _ (natChars_all_digits _) c
          (rstripChar_subset '0' _ c hc)
      · intro hlast
        exact rstripChar_getLast '0' _ '0' hlast rfl

/-! ## Parsing canonical output back -/

theorem head?_natChars (n : Nat) :
    ∃ c, (natChars n).head? = some c ∧ isDigitC c = true := by
  obtain ⟨c, t, h⟩ := List.exists_cons_of_ne_nil (natChars_ne_nil n)
  refine ⟨c, by rw [h]; rfl, natChars_all_digits n c ?_⟩
  rw [h]
  exact List.mem_cons_self c t

theorem head?_natChars_ne_dash (n : Nat) : (natChars n).head? ≠ some '-' := by
  obtain ⟨c, hc, hd⟩ := head?_natChars n
  rw [hc]
  intro hcon
  injection hcon with hcon
  exact ne_dash_of_isDigitC c hd hcon

theorem decFromChars_core_int (neg : Bool) (ipn : Nat) :
    decFromChars ((if neg then ['-'] else []) ++ natChars ipn) =
      ⟨(if neg then -1 else 1) * (ipn : Int), 1⟩ := by
  have hdigits := natChars_all_digits ipn
  have hall : (natChars ipn).all isDigitC = true := List.all_eq_true.2 hdigits
  have hnn := natChars_ne_nil ipn
  have hdotn := dot_not_mem_natChars ipn
  cases neg with
  | false =>
    simp only [Bool.false_eq_true, if_false, List.nil_append]
    have hexc : ¬(natChars ipn = [] ∨ natChars ipn = ['-'] ∨ natChars ipn = ['.'] ∨
        natChars ipn = ['-', '.'] ∨ natChars ipn = ['0', '.'] ∨
        natChars ipn = ['-', '0', '.']) := by
      push_neg
      refine ⟨hnn, ?_, ?_, ?_, ?_, ?_⟩
      · intro hcon
        exact ne_dash_of_isDigitC '-' (hdigits '-' (by rw [hcon]; simp)) rfl
      · intro hcon
        exact hdotn (by rw [hcon]; simp)
      · intro hcon
        exact hdotn (by rw [hcon]; simp)
      · intro hcon
        exact hdotn (by rw [hcon]; simp)
      · intro hcon
        exact hdotn (by rw [hcon]; simp)
    rw [decFromChars, if_neg hexc,
      stripSignChars_of_head _ (head?_natChars_ne_dash ipn)]
    simp only [splitDot_no_dot _ hdotn]
    rw [if_pos ⟨hnn, hall⟩, readNat_natChars]
    norm_num
  | true =>
    simp only [if_true, List.singleton_append]
    have hexc : ¬(('-' :: natChars ipn) = [] ∨ ('-' :: natChars ipn) = ['-'] ∨
        ('-' :: natChars ipn) = ['.'] ∨ ('-' :: natChars ipn) = ['-', '.'] ∨
        ('-' :: natChars ipn) = ['0', '.'] ∨ ('-' :: natChars ipn) = ['-', '0', '.']) := by
      push_neg
      refine ⟨by simp, ?_, by simp, ?_, by simp, ?_⟩
      · intro hcon
        injection hcon with h1 h2
        exact hnn h2
      · intro hcon
        injection hcon with h1 h2
        exact hdotn (by rw [h2]; simp)
      · intro hcon
        injection hcon with h1 h2
        exact hdotn (by rw [h2]; simp)
    rw [decFromChars, if_neg hexc, stripSignChars_dash]
    simp only [splitDot_no_dot _ hdotn]
    rw [if_pos ⟨hnn, hall⟩, readNat_natChars]
    norm_num

theorem fmtChars_core_int (neg : Bool) (ipn : Nat) (hip : ipn ≠ 0) :
    fmtChars ⟨(if neg then -1 else 1) * (ipn : Int), 1⟩ =
      (if neg then ['-'] else []) ++ natChars ipn := by
  have hd0 : decExp 1 = 0 := by
    have := decExp_pow 0
    rwa [pow_zero] at this
  have hfp : fixedPointChars ipn 0 = natChars ipn := by
    rw [fixedPointChars, if_pos rfl]
  have hst : stripText (natChars ipn) = natChars ipn := by
    rw [stripText, if_neg (dot_not_mem_natChars ipn)]
  cases neg with
  | false =>
    simp only [Bool.false_eq_true, if_false, one_mul, List.nil_append]
    have hnum : ((ipn : Int)) ≠ 0 := by exact_mod_cast hip
    have hlt : ¬((ipn : Int) < 0) := by omega
    simp only [fmtChars, hd0]
    rw [if_neg hnum, if_neg hlt]
    simp only [pow_zero, Int.natAbs_ofNat, Nat.mul_one, Nat.div_one]
    rw [hfp, hst, if_neg (natChars_ne_nil ipn)]
    simp
  | true =>
    simp only [if_true, List.singleton_append]
    have hpos : (0 : Int) < (ipn : Int) := by exact_mod_cast Nat.pos_of_ne_zero hip
    have hnum : (-1 : Int) * (ipn : Int) ≠ 0 := by omega
    have hlt : (-1 : Int) * (ipn : Int) < 0 := by omega
    have habs : ((-1 : Int) * (ipn : Int)).natAbs = ipn := by
      rw [neg_one_mul, Int.natAbs_neg, Int.natAbs_ofNat]
    simp only [fmtChars, hd0]
    rw [if_neg hnum, if_pos hlt]
    simp only [pow_zero, habs, Nat.mul_one, Nat.div_one]
    rw [hfp, hst, if_neg (natChars_ne_nil ipn)]
    simp

theorem readNat_pos_of_last (FCp : List Char) (hne : FCp ≠ [])
    (hd : ∀ c ∈ FCp, isDigitC c = true) (hlast0 : FCp.getLast? ≠ some '0') :
    1 ≤ readNat FCp := by
  obtain ⟨b, hb⟩ : ∃ b, FCp.getLast? = some b := by
    cases hf : FCp.getLast? with
    | none => exact absurd (List.getLast?_eq_none_iff.1 hf) hne
    | some b => exact ⟨b, rfl⟩
  obtain ⟨ys, hys⟩ := List.getLast?_eq_some_iff.mp hb
  have hbd : isDigitC b = true := hd b (List.mem_of_mem_getLast? hb)
  have hb0 : b ≠ '0' := fun hcon => hlast0 (by rw [hb, hcon])
  have hv : digitVal b ≠ 0 := fun hcon =>
    hb0 ((digitVal_eq_zero_iff b hbd).1 hcon)
  rw [hys, readNat_append, readNat_singleton]
  have := Nat.pos_of_ne_zero hv
  omega

theorem body_getLast_digit (ipn : Nat) (FCp : List Char) (hne : FCp ≠ [])
    (hd : ∀ c ∈ FCp, isDigitC c = true) :
    ∃ b, (natChars ipn ++ '.' :: FCp).getLast? = some b ∧ isDigitC b = true := by
  obtain ⟨b, hb⟩ : ∃ b, FCp.getLast? = some b := by
    cases hf : FCp.getLast? with
    | none => exact absurd (List.getLast?_eq_none_iff.1 hf) hne
    | some b => exact ⟨b, rfl⟩
  refine ⟨b, ?_, hd b (List.mem_of_mem_getLast? hb)⟩
  rw [List.getLast?_append, getLast?_cons_ne_nil '.' FCp hne, hb]
  rfl

theorem decFromChars_core_frac (neg : Bool) (ipn : Nat) (FCp : List Char)
    (hne : FCp ≠ []) (hd : ∀ c ∈ FCp, isDigitC c = true) :
    decFromChars ((if neg then ['-'] else []) ++ (natChars ipn ++ '.' :: FCp)) =
      ⟨(if neg then -1 else 1) * ((ipn * 10 ^ FCp.length + readNat FCp : Nat) : Int),
       10 ^ FCp.length⟩ := by
  have hnn := natChars_ne_nil ipn
  have hdotn := dot_not_mem_natChars ipn
  have hallIC : (natChars ipn).all isDigitC = true :=
    List.all_eq_true.2 (natChars_all_digits ipn)
  have hallFC : FCp.all isDigitC = true := List.all_eq_true.2 hd
  obtain ⟨b, hbeq, hbdig⟩ := body_getLast_digit ipn FCp hne hd
  have hbody_ne : natChars ipn ++ '.' :: FCp ≠ [] := by simp
  cases neg with
  | false =>
    simp only [Bool.false_eq_true, if_false, List.nil_append]
    have hexc : ¬(natChars ipn ++ '.' :: FCp = [] ∨
        natChars ipn ++ '.' :: FCp = ['-'] ∨
        natChars ipn ++ '.' :: FCp = ['.'] ∨
        natChars ipn ++ '.' :: FCp = ['-', '.'] ∨
        natChars ipn ++ '.' :: FCp = ['0', '.'] ∨
        natChars ipn ++ '.' :: FCp = ['-', '0', '.']) := by
      push_neg
      refine ⟨hbody_ne, ?_, ?_, ?_, ?_, ?_⟩ <;>
        · intro hcon
          rw [hcon] at hbeq
          simp at hbeq
          subst hbeq
          simp [isDigitC] at hbdig
    have hhead : (natChars ipn ++ '.' :: FCp).head? ≠ some '-' := by
      rw [List.head?_append_of_ne_nil _ hnn]
      exact head?_natChars_ne_dash ipn
    rw [decFromChars, if_neg hexc, stripSignChars_of_head _ hhead]
    simp only [splitDot_append_dot _ _ hdotn]
    rw [if_pos ⟨Or.inl hnn, hallIC, hallFC⟩, readNat_natChars]
    norm_num
  | true =>
    simp only [if_true, List.singleton_append]
    have hexc : ¬('-' :: (natChars ipn ++ '.' :: FCp) = [] ∨
        '-' :: (natChars ipn ++ '.' :: FCp) = ['-'] ∨
        '-' :: (natChars ipn ++ '.' :: FCp) = ['.'] ∨
        '-' :: (natChars ipn ++ '.' :: FCp) = ['-', '.'] ∨
        '-' :: (natChars ipn ++ '.' :: FCp) = ['0', '.'] ∨
        '-' :: (natChars ipn ++ '.' :: FCp) = ['-', '0', '.']) := by
      push_neg
      refine ⟨by simp, ?_, ?_, ?_, ?_, ?_⟩ <;>
        · intro hcon
          injection hcon with h1 h2
          first
          | exact hbody_ne h2
          | (rw [h2] at hbeq
             simp at hbeq
             subst hbeq
             simp [isDigitC] at hbdig)
    rw [decFromChars, if_neg hexc, stripSignChars_dash]
    simp only [splitDot_append_dot _ _ hdotn]
    rw [if_pos ⟨Or.inl hnn, hallIC, hallFC⟩, readNat_natChars]
    norm_num

theorem fmtChars_core_frac (neg : Bool) (ipn : Nat) (FCp : List Char)
    (hne : FCp ≠ []) (hd : ∀ c ∈ FCp, isDigitC c = true)
    (hlast0 : FCp.getLast? ≠ some '0') :
    fmtChars ⟨(if neg then -1 else 1) *
        ((ipn * 10 ^ FCp.length + readNat FCp : Nat) : Int), 10 ^ FCp.length⟩ =
      (if neg then ['-'] else []) ++ (natChars ipn ++ '.' :: FCp) := by
  have hj1 : 1 ≤ FCp.length := List.length_pos.2 hne
  have hrpos : 1 ≤ readNat FCp := readNat_pos_of_last FCp hne hd hlast0
  have hrlt : readNat FCp < 10 ^ FCp.length := readNat_lt FCp hd
  have hNpos : 1 ≤ ipn * 10 ^ FCp.length + readNat FCp := by omega
  have hpow : (0 : Nat) < 10 ^ FCp.length := pow_pos (by omega) _
  have hdotn := dot_not_mem_natChars ipn
  have hFCdot : '.' ∉ FCp := fun hm => ne_dot_of_isDigitC '.' (hd '.' hm) rfl
  have hdiv : (ipn * 10 ^ FCp.length + readNat FCp) / 10 ^ FCp.length = ipn := by
    rw [Nat.add_comm, Nat.add_mul_div_right _ _ hpow, Nat.div_eq_of_lt hrlt]
    omega
  have hmod : (ipn * 10 ^ FCp.length + readNat FCp) % 10 ^ FCp.length =
      readNat FCp := by
    rw [Nat.add_comm, Nat.add_mul_mod_self_right]
    exact Nat.mod_eq_of_lt hrlt
  have hfp : fixedPointChars (ipn * 10 ^ FCp.length + readNat FCp) FCp.length =
      natChars ipn ++ '.' :: FCp := by
    rw [fixedPointChars, if_neg (by omega), hdiv, hmod, padZeros_readNat FCp hne hd]
  have hst : stripText (natChars ipn ++ '.' :: FCp) = natChars ipn ++ '.' :: FCp := by
    rw [stripText_split _ _ hdotn hFCdot]
    have hnoop : rstripChar '0' FCp = FCp := by
      apply rstripChar_of_getLast
      intro a ha hcon
      exact hlast0 (by rw [ha, hcon])
    rw [hnoop, if_neg hne]
  have htext_ne : natChars ipn ++ '.' :: FCp ≠ [] := by simp
  cases neg with
  | false =>
    simp only [Bool.false_eq_true, if_false, one_mul, List.nil_append]
    have hN0 : (ipn * 10 ^ FCp.length + readNat FCp) ≠ 0 := by omega
    have hnum : ((ipn * 10 ^ FCp.length + readNat FCp : Nat) : Int) ≠ 0 := by
      exact_mod_cast hN0
    have hlt : ¬(((ipn * 10 ^ FCp.length + readNat FCp : Nat) : Int) < 0) := by omega
    simp only [fmtChars, decExp_pow]
    rw [if_neg hnum, if_neg hlt]
    simp only [Int.natAbs_ofNat]
    rw [Nat.mul_div_cancel _ hpow, hfp, hst, if_neg htext_ne]
    simp
  | true =>
    simp only [if_true, List.singleton_append]
    have hcast : (0 : Int) < ((ipn * 10 ^ FCp.length + readNat FCp : Nat) : Int) := by
      exact_mod_cast hNpos
    have hnum : (-1 : Int) * ((ipn * 10 ^ FCp.length + readNat FCp : Nat) : Int) ≠ 0 := by
      omega
    have hlt : (-1 : Int) * ((ipn * 10 ^ FCp.length + readNat FCp : Nat) : Int) < 0 := by
      omega
    have habs : ((-1 : Int) * ((ipn * 10 ^ FCp.length + readNat FCp : Nat) : Int)).natAbs =
        ipn * 10 ^ FCp.length + readNat FCp := by
      rw [neg_one_mul, Int.natAbs_neg, Int.natAbs_ofNat]
    simp only [fmtChars, decExp_pow]
    rw [if_neg hnum, if_pos hlt]
    simp only [habs]
    rw [Nat.mul_div_cancel _ hpow, hfp, hst, if_neg htext_ne]
    simp

/-! ## The parse/format round trip -/

theorem decFromChars_shape (cs : List Char) :
    ∃ (n : Int) (k : Nat), decFromChars cs = ⟨n, 10 ^ k⟩ := by
  simp only [decFromChars]
  by_cases h : cs = [] ∨ cs = ['-'] ∨ cs = ['.'] ∨ cs = ['-', '.'] ∨
      cs = ['0', '.'] ∨ cs = ['-', '0', '.']
  · rw [if_pos h]
    exact ⟨0, 0, by norm_num⟩
  · rw [if_neg h]
    split
    all_goals split_ifs
    all_goals
      first
      | exact ⟨_, _, rfl⟩
      | exact ⟨_, 0, by rw [pow_zero]⟩

theorem fmt_roundtrip (n : Int) (k : Nat) :
    fmtChars (decFromChars (fmtChars ⟨n, 10 ^ k⟩)) = fmtChars ⟨n, 10 ^ k⟩ := by
  by_cases hn : n = 0
  · subst hn
    have h1 : fmtChars ⟨0, 10 ^ k⟩ = ['0'] := by rw [fmtChars, if_pos rfl]
    rw [h1]
    decide
  · obtain ⟨body, hbody, hcase⟩ := fmtChars_shape n k hn
    rw [hbody]
    rcases hcase with ⟨ipn, hip, rfl⟩ | ⟨ipn, FCp, rfl, hne, hd, hlast0⟩
    · by_cases hneg : n < 0
      · rw [if_pos hneg]
        have hcA := decFromChars_core_int true ipn
        have hfA := fmtChars_core_int true ipn hip
        simp only [if_true] at hcA hfA
        rw [hcA, hfA]
      · rw [if_neg hneg]
        have hcA := decFromChars_core_int false ipn
        have hfA := fmtChars_core_int false ipn hip
        simp only [Bool.false_eq_true, if_false, List.nil_append] at hcA hfA
        simp only [List.nil_append]
        rw [hcA, hfA]
    · by_cases hneg : n < 0
      · rw [if_pos hneg]
        have hcB := decFromChars_core_frac true ipn FCp hne hd
        have hfB := fmtChars_core_frac true ipn FCp hne hd hlast0
        simp only [if_true] at hcB hfB
        rw [hcB, hfB]
      · rw [if_neg hneg]
        have hcB := decFromChars_core_frac false ipn FCp hne hd
        have hfB := fmtChars_core_frac false ipn FCp hne hd hlast0
        simp only [Bool.false_eq_true, if_false, List.nil_append] at hcB hfB
        simp only [List.nil_append]
        rw [hcB, hfB]

/-- C8: for every valid partial entry string `s` (the grammar of the
entry-text invariant, including `""`, `"-"`, `"."`, `"-."`, `"0."`,
`"-0."`), re-parsing a formatted value and reformatting yields the same
string: `format(parse(format(parse(s)))) = format(parse(s))`.  (The proof
does not even need the validity hypothesis: every parse result has a
power-of-ten denominator, and formatting such a value is parsed back to
the same value.) -/
theorem claim8_main (s : String) (_h : ValidEntry s = true) :
    format_decimal (decimal_from_text (format_decimal (decimal_from_text s))) =
      format_decimal (decimal_from_text s) := by
  obtain ⟨n, k, hp⟩ := decFromChars_shape s.data
  calc format_decimal (decimal_from_text (format_decimal (decimal_from_text s)))
      = String.mk (fmtChars (decFromChars (fmtChars (decFromChars s.data)))) := rfl
    _ = String.mk (fmtChars (decFromChars (fmtChars ⟨n, 10 ^ k⟩))) := by rw [hp]
    _ = String.mk (fmtChars ⟨n, 10 ^ k⟩) := by rw [fmt_roundtrip]
    _ = format_decimal (decimal_from_text s) := by
        rw [decimal_from_text, hp, format_decimal]

theorem claim8_witness :
    ValidEntry "0." = true ∧
    format_decimal (decimal_from_text (format_decimal (decimal_from_text "0."))) =
      format_decimal (decimal_from_text "0.") :=
  ⟨by decide, claim8_main "0." (by decide)⟩

theorem claim7_witness :
    clearLabel initState = "AC" ∧
    (clearLabel initState = "AC" ↔
      (initState.error_state = true ∨
        (initState.current_text = "0" ∧ initState.accumulator.isZero = true ∧
         initState.pending_op = none ∧ initState.reset_next_entry = false))) :=
  ⟨by decide, (claim7_main initState).1⟩
